import Mathlib

/-!
Verification development for the acoustic motor-sound classification pipeline
(`Acoustic_TF_LSTM_MFCC.ipynb`).  The Python pipeline is shallowly embedded:
pure numeric code becomes Lean functions over `ℚ`/`ℝ`/`ℕ`, the window
generator loop becomes a fuel-indexed recursion, and list slicing follows
Python slice semantics.
-/

namespace Acoustic

/-! ## Window Generator

Source:
```
def windows(data, window_size):
    start = 0
    while start < len(data):
        yield int(start), int(start + window_size)
        start += (window_size / 2)
```
`start` advances by the float `window_size / 2`, so it is always an integer
multiple of half of `window_size`.  We track `sd = 2 * start`, which is an
exact natural number (the float arithmetic is exact at these magnitudes:
every value is a multiple of 0.5 far below 2^52).  Then
`int(start) = sd / 2` (floor, since `start ≥ 0`) and
`int(start + window_size) = sd / 2 + window_size`.
The `while` loop is embedded with explicit fuel; `windows_terminate_pos`
below proves that fuel `2 * L + 1` suffices whenever `window_size ≥ 1`,
and `windows_zero_step_diverges` that no fuel suffices for
`window_size = 0` (the Python loop then never advances `start`). -/
def windowsF (L ws : ℕ) : ℕ → ℕ → Option (List (ℕ × ℕ))
  | fuel, sd =>
    if sd < 2 * L then
      match fuel with
      | 0 => none
      | f + 1 =>
        (windowsF L ws f (sd + ws)).map (fun rest => (sd / 2, sd / 2 + ws) :: rest)
    else
      some []

/-- The (finite) list of `(start, end)` pairs produced by the generator, with
fuel `2 * L + 1` (proven sufficient for `ws ≥ 1`). -/
def windows (L ws : ℕ) : List (ℕ × ℕ) := (windowsF L ws (2 * L + 1) 0).getD []

/-- Whether iterating the generator from `start = 0` terminates for some
finite fuel. -/
def windowsTerminates (L ws : ℕ) : Prop :=
  ∃ fuel out, windowsF L ws fuel 0 = some out

/-- Length of the Python slice `l[a:b]` (`a, b ≥ 0`) of a sequence of length
`L`: `max 0 (min b L - min a L)`, which is the truncated subtraction. -/
def pySliceLen (L a b : ℕ) : ℕ := min b L - min a L

/-- The Python slice `l[a:b]` for `a, b ≥ 0`. -/
def pySlice (l : List α) (a b : ℕ) : List α := (l.drop a).take (b - a)

/-- The windows surviving the caller's full-length filter
`len(sound_clip[start:end]) == window_size` in `extract_features`. -/
def fullWindows (L ws : ℕ) : List (ℕ × ℕ) :=
  (windows L ws).filter (fun p => pySliceLen L p.1 p.2 == ws)

/-- Number of iterations of the generator loop starting from doubled
position `sd`: `⌈(2L - sd) / ws⌉`. -/
def iterCount (L ws sd : ℕ) : ℕ := (2 * L - sd + ws - 1) / ws

lemma pySlice_length (l : List α) (a b : ℕ) :
    (pySlice l a b).length = pySliceLen l.length a b := by
  simp only [pySlice, pySliceLen, List.length_take, List.length_drop]
  omega

lemma iterCount_step {L ws sd : ℕ} (hws : 0 < ws) (h : sd < 2 * L) :
    iterCount L ws sd = iterCount L ws (sd + ws) + 1 := by
  unfold iterCount
  rcases Nat.le_total (2 * L - sd) ws with hle | hlt
  · have h1 : 2 * L - (sd + ws) = 0 := by omega
    rw [h1]
    have h2 : (2 * L - sd + ws - 1) / ws = 1 := by
      apply Nat.div_eq_of_lt_le <;> omega
    have h3 : (0 + ws - 1) / ws = 0 := Nat.div_eq_of_lt (by omega)
    omega
  · have h1 : 2 * L - (sd + ws) + ws - 1 = 2 * L - sd - 1 := by omega
    have h2 : 2 * L - sd + ws - 1 = (2 * L - sd - 1) + ws := by omega
    rw [h1, h2, Nat.add_div_right _ hws]

lemma windowsF_closed {L ws : ℕ} (hws : 0 < ws) :
    ∀ fuel sd, 2 * L ≤ sd + fuel →
      windowsF L ws fuel sd =
        some ((List.range (iterCount L ws sd)).map
          (fun k => ((sd + k * ws) / 2, (sd + k * ws) / 2 + ws))) := by
  intro fuel
  induction fuel with
  | zero =>
    intro sd hsd
    have hstop : ¬ sd < 2 * L := by omega
    have hc : iterCount L ws sd = 0 := by
      unfold iterCount
      have : 2 * L - sd = 0 := by omega
      rw [this]
      exact Nat.div_eq_of_lt (by omega)
    rw [windowsF, if_neg hstop, hc]
    simp
  | succ f ih =>
    intro sd hsd
    by_cases hlt : sd < 2 * L
    · rw [windowsF, if_pos hlt]
      rw [ih (sd + ws) (by omega)]
      rw [iterCount_step hws hlt, List.range_succ_eq_map]
      simp only [Option.map_some', Option.some.injEq, List.map_cons, List.map_map,
        Nat.zero_mul, Nat.add_zero]
      congr 1
      apply List.map_congr_left
      intro k _
      simp only [Function.comp_apply, Nat.succ_eq_add_one]
      have h : sd + (k + 1) * ws = sd + ws + k * ws := by ring
      rw [h]
    · have hc : iterCount L ws sd = 0 := by
        unfold iterCount
        have : 2 * L - sd = 0 := by omega
        rw [this]
        exact Nat.div_eq_of_lt (by omega)
      rw [windowsF, if_neg hlt, hc]
      simp

lemma windows_eq {L ws : ℕ} (hws : 0 < ws) :
    windows L ws = (List.range (iterCount L ws 0)).map
      (fun k => (k * ws / 2, k * ws / 2 + ws)) := by
  unfold windows
  rw [windowsF_closed hws (2 * L + 1) 0 (by omega)]
  simp

lemma lt_ceilDiv_iff {D ws k : ℕ} (hws : 0 < ws) :
    k < (D + ws - 1) / ws ↔ k * ws < D := by
  have hexp : (k + 1) * ws = k * ws + ws := by ring
  constructor
  · intro h
    have h1 : (k + 1) * ws ≤ ((D + ws - 1) / ws) * ws := Nat.mul_le_mul_right _ h
    have h2 : ((D + ws - 1) / ws) * ws ≤ D + ws - 1 := Nat.div_mul_le_self _ _
    omega
  · intro h
    have h1 : (k + 1) * ws ≤ D + ws - 1 := by omega
    have h2 := (Nat.le_div_iff_mul_le hws).mpr h1
    omega

lemma mem_range_iterCount {L ws k : ℕ} (hws : 0 < ws) :
    k < iterCount L ws 0 ↔ k * ws < 2 * L := by
  unfold iterCount
  rw [Nat.sub_zero]
  exact lt_ceilDiv_iff hws

lemma countP_range_le_eq (M : ℕ) :
    ∀ n, (List.range n).countP (fun k => k ≤ M) = min n (M + 1) := by
  intro n
  induction n with
  | zero => simp
  | succ n ih =>
    rw [List.range_succ, List.countP_append, ih]
    by_cases h : n ≤ M
    · simp only [List.countP_cons, List.countP_nil, decide_eq_true_eq, h,
        if_true]
      omega
    · simp only [List.countP_cons, List.countP_nil, decide_eq_true_eq, h,
        if_false]
      omega

/-- C8 (amended to `window_size ≥ 1`): the generator loop terminates — fuel
`2 * L + 1` always suffices, producing the finite pair list `windows L ws`. -/
theorem windows_terminate_pos (L ws : ℕ) (hws : 0 < ws) :
    windowsF L ws (2 * L + 1) 0 = some (windows L ws) := by
  rw [windowsF_closed hws (2 * L + 1) 0 (by omega), windows_eq hws]
  simp

theorem windows_terminate_pos_witness :
    0 < 3 ∧ windowsF 4 3 (2 * 4 + 1) 0 = some (windows 4 3) :=
  ⟨by decide, windows_terminate_pos 4 3 (by decide)⟩

lemma windowsF_zero_ws_none : ∀ fuel, windowsF 1 0 fuel 0 = none := by
  intro fuel
  induction fuel with
  | zero =>
    rw [windowsF]
    simp
  | succ f ih =>
    rw [windowsF]
    simp [ih]

/-- C8 counterexample: for `window_size = 0` and a nonempty signal the
generator never terminates (`start` is never advanced), refuting the claim
for every `window_size`. -/
theorem windows_zero_step_diverges : ¬ windowsTerminates 1 0 := by
  rintro ⟨fuel, out, h⟩
  rw [windowsF_zero_ws_none fuel] at h
  exact Option.noConfusion h

/-- C3 (amended to even `window_size = 2 * h`): the number of windows that
survive the caller's full-length filter is `(L - ws) / (ws / 2) + 1` when
`L ≥ ws` and `0` otherwise. -/
theorem full_window_count_even (L h : ℕ) (hh : 0 < h) :
    (fullWindows L (2 * h)).length =
      if 2 * h ≤ L then (L - 2 * h) / h + 1 else 0 := by
  have hws : 0 < 2 * h := by omega
  rw [fullWindows, ← List.countP_eq_length_filter, windows_eq hws,
    List.countP_map]
  have hhalf : ∀ k : ℕ, k * (2 * h) / 2 = k * h := by
    intro k
    have : k * (2 * h) = 2 * (k * h) := by ring
    rw [this, Nat.mul_div_cancel_left _ (by omega)]
  have hpt : ∀ k ∈ List.range (iterCount L (2 * h) 0),
      (((fun p : ℕ × ℕ => pySliceLen L p.1 p.2 == 2 * h) ∘
        (fun k => (k * (2 * h) / 2, k * (2 * h) / 2 + 2 * h))) k = true ↔
      (fun k : ℕ => decide (k * h + 2 * h ≤ L)) k = true) := by
    intro k _
    simp only [Function.comp_apply, hhalf, pySliceLen, beq_iff_eq,
      decide_eq_true_eq]
    omega
  rw [List.countP_congr hpt]
  by_cases hL : 2 * h ≤ L
  · rw [if_pos hL]
    have hpt2 : ∀ k ∈ List.range (iterCount L (2 * h) 0),
        ((fun k : ℕ => decide (k * h + 2 * h ≤ L)) k = true ↔
        (fun k : ℕ => decide (k ≤ (L - 2 * h) / h)) k = true) := by
      intro k _
      simp only [decide_eq_true_eq]
      rw [Nat.le_div_iff_mul_le hh]
      omega
    rw [List.countP_congr hpt2, countP_range_le_eq]
    have hMN : (L - 2 * h) / h + 1 ≤ iterCount L (2 * h) 0 := by
      have h1 : ((L - 2 * h) / h) * h ≤ L - 2 * h := Nat.div_mul_le_self _ _
      have h2 : ((L - 2 * h) / h) * (2 * h) = 2 * (((L - 2 * h) / h) * h) := by
        ring
      exact (mem_range_iterCount hws).mpr (by omega)
    omega
  · rw [if_neg hL, List.countP_eq_zero]
    intro k _
    simp only [decide_eq_true_eq]
    omega

theorem full_window_count_even_witness :
    0 < 1 ∧ (fullWindows 5 (2 * 1)).length =
      if 2 * 1 ≤ 5 then (5 - 2 * 1) / 1 + 1 else 0 :=
  ⟨by decide, full_window_count_even 5 1 (by decide)⟩

/-- C3 counterexample: for the odd `window_size = 3` and `L = 7` the code
keeps 4 full windows (truncated starts 0, 1, 3, 4 with ends 3, 4, 6, 7),
but the claimed formula `⌊(L - ws) / (ws / 2)⌋ + 1 = ⌊4 / 1.5⌋ + 1` gives 3. -/
theorem window_count_formula_cex :
    (fullWindows 7 3).length = 4 ∧
      (⌊((7 : ℚ) - 3) / ((3 : ℚ) / 2)⌋ + 1 : ℤ) = 3 := by
  constructor
  · decide
  · norm_num [Int.floor_eq_iff]

/-- C10: for every nonempty signal and positive `window_size`, the first
generated pair is `(0, window_size)` (even when `window_size > L` — the
generator never compares `end` with `L`), and the caller's slice-length
filter is what enforces `end ≤ L`. -/
theorem windows_first_and_bounds (L ws : ℕ) (hL : 0 < L) (hws : 0 < ws) :
    (windows L ws).head? = some (0, ws) ∧
      ∀ p ∈ fullWindows L ws, p.2 ≤ L := by
  constructor
  · rw [windows_eq hws]
    cases hN : iterCount L ws 0 with
    | zero =>
      have : (0 : ℕ) * ws < 2 * L := by omega
      have := (mem_range_iterCount hws).mpr this
      omega
    | succ n =>
      rw [List.range_succ_eq_map]
      simp
  · intro p hp
    rw [fullWindows, List.mem_filter] at hp
    obtain ⟨hpw, hpred⟩ := hp
    rw [windows_eq hws, List.mem_map] at hpw
    obtain ⟨k, _, rfl⟩ := hpw
    simp only [pySliceLen, beq_iff_eq] at hpred
    simp only []
    omega

theorem windows_first_and_bounds_witness :
    0 < 1 ∧ 0 < 5 ∧ ((windows 1 5).head? = some (0, 5) ∧
      ∀ p ∈ fullWindows 1 5, p.2 ≤ 1) :=
  ⟨by decide, by decide, windows_first_and_bounds 1 5 (by decide) (by decide)⟩

/-! ## Signal Normalizer

Source:
```
def feature_normalize(dataset):
    mu = np.mean(dataset, axis=0)
    sigma = np.std(dataset, axis=0)
    return (dataset - mu) / sigma
```
The body performs no zero-stddev check and raises nothing: `numpy` division
by a zero `sigma` emits a warning and yields non-finite values.  In this
exact-rational embedding `np.std`'s square root is `Rat.sqrt` (exact
whenever the variance is a perfect rational square, in particular exact at
variance `0`, the only case the claims below evaluate), and ℚ division by
zero yields `0` where `numpy` yields `NaN`; the development relies only on
totality and length preservation, which both semantics share. -/
def npMean (l : List ℚ) : ℚ := l.sum / l.length

def npStd (l : List ℚ) : ℚ :=
  Rat.sqrt (npMean (l.map (fun x => (x - npMean l) ^ 2)))

def feature_normalize (dataset : List ℚ) : List ℚ :=
  dataset.map (fun x => (x - npMean dataset) / npStd dataset)

/-- Modelled from the spec: a Signal Normalizer that "fails with
`DegenerateSignalError` if stddev is zero (silent/constant input)" instead
of returning a value.  The source notebook has no such error path; this
definition exists only to state the divergence. -/
def feature_normalize_spec (dataset : List ℚ) : Except String (List ℚ) :=
  if npStd dataset = 0 then Except.error "DegenerateSignalError"
  else Except.ok (dataset.map (fun x => (x - npMean dataset) / npStd dataset))

lemma sum_of_constant (c : ℚ) :
    ∀ l : List ℚ, (∀ x ∈ l, x = c) → l.sum = l.length * c := by
  intro l
  induction l with
  | nil => simp
  | cons a t ih =>
    intro h
    have ha : a = c := h a (by simp)
    have ht : t.sum = t.length * c := ih (fun x hx => h x (by simp [hx]))
    simp [ha, ht]
    ring

lemma npMean_constant {l : List ℚ} {c : ℚ} (hne : l ≠ []) (h : ∀ x ∈ l, x = c) :
    npMean l = c := by
  have hlen : (l.length : ℚ) ≠ 0 := by
    simp [List.length_eq_zero]
    exact hne
  rw [npMean, sum_of_constant c l h, mul_comm, mul_div_assoc, div_self hlen,
    mul_one]

/-- C5 (amended): for a constant input the Signal Normalizer does not fail —
it returns a sequence of the same length (each entry the division of the
zero deviation by the zero stddev: `NaN` in `numpy`, `0` here). -/
theorem feature_normalize_constant_total (l : List ℚ) (c : ℚ)
    (h : ∀ x ∈ l, x = c) :
    feature_normalize l = List.replicate l.length 0 := by
  rcases eq_or_ne l [] with rfl | hne
  · simp [feature_normalize]
  · have hmu : npMean l = c := npMean_constant hne h
    have hz : ∀ y ∈ feature_normalize l, y = 0 := by
      intro y hy
      simp only [feature_normalize, List.mem_map] at hy
      obtain ⟨x, hx, rfl⟩ := hy
      rw [h x hx, hmu, sub_self, zero_div]
    have hlen : (feature_normalize l).length = l.length := by
      simp [feature_normalize]
    rw [← hlen]
    exact List.eq_replicate_of_mem hz

theorem feature_normalize_constant_total_witness :
    (∀ x ∈ List.replicate 3 (1 : ℚ), x = 1) ∧
      feature_normalize (List.replicate 3 (1 : ℚ)) =
        List.replicate (List.replicate 3 (1 : ℚ)).length 0 :=
  ⟨fun _ hx => List.eq_of_mem_replicate hx,
    feature_normalize_constant_total (List.replicate 3 1) 1
      (fun _ hx => List.eq_of_mem_replicate hx)⟩

/-- C5 counterexample: on the constant (zero-stddev) input `[1, 1, 1]` the
code's normalizer returns a value — the length-3 list of `0/0` divisions —
while the spec's normalizer fails with `DegenerateSignalError`, so the claim
that the code "fails rather than returning a value" is false. -/
theorem feature_normalize_no_error_cex :
    feature_normalize [1, 1, 1] = [0, 0, 0] ∧
      feature_normalize_spec [1, 1, 1] = Except.error "DegenerateSignalError" := by
  have hmu : npMean [1, 1, 1] = 1 := by
    norm_num [npMean, List.sum_cons, List.sum_nil]
  have hstd : npStd [1, 1, 1] = 0 := by
    have h0 : npMean ([1, 1, 1].map (fun x => (x - npMean [1, 1, 1]) ^ 2)) = 0 := by
      rw [hmu]
      norm_num [npMean, List.sum_cons, List.sum_nil]
    rw [npStd, h0]
    rfl
  constructor
  · simp [feature_normalize, hmu, hstd]
  · rw [feature_normalize_spec, if_pos hstd]

/-! ## One-hot encoding and the inference label list

Source:
```
def one_hot_encode(labels):
    return np.asarray(pd.get_dummies(labels), dtype = np.float32)
...
LABELS = ["new","used","red"]
predicted_label = LABELS[predicted_logit]
```
`pd.get_dummies` (external collaborator) produces one indicator column per
distinct label, with the columns in sorted order of the distinct label
strings (pandas sorts the discovered category values; Python compares
strings lexicographically by code point).  `lexLe`/`sortStrings` model that
ordering. -/
def lexLe : List Char → List Char → Bool
  | [], _ => true
  | _ :: _, [] => false
  | a :: as, b :: bs =>
    if a.toNat < b.toNat then true
    else if b.toNat < a.toNat then false
    else lexLe as bs

def strLe (a b : String) : Bool := lexLe a.data b.data

def insertSorted (s : String) : List String → List String
  | [] => [s]
  | t :: ts => if strLe s t then s :: t :: ts else t :: insertSorted s ts

def sortStrings : List String → List String
  | [] => []
  | s :: ss => insertSorted s (sortStrings ss)

/-- The indicator-column order of `pd.get_dummies`: distinct labels sorted
lexicographically. -/
def getDummiesColumns (labels : List String) : List String :=
  sortStrings labels.dedup

def one_hot_encode (labels : List String) : List (List ℚ) :=
  labels.map (fun l => (getDummiesColumns labels).map
    (fun c => if c = l then (1 : ℚ) else 0))

/-- The class index a label receives in the one-hot encoding used at
training time. -/
def trainClassIndex (labels : List String) (c : String) : ℕ :=
  (getDummiesColumns labels).indexOf c

def LABELS : List String := ["new", "used", "red"]

/-- `predicted_label = LABELS[predicted_logit]` -/
def predicted_label (i : ℕ) : String := LABELS.getD i ""

/-- C1: the label/index mapping is NOT stable across training and inference.
On the notebook's corpus labels the one-hot columns are the alphabetically
sorted `["new", "red", "used"]`, so "used" is encoded at index 2 and "red"
at index 1, while the inference list `LABELS = ["new", "used", "red"]` maps
index 2 to "red" and index 1 to "used": a perfectly predicted "used" window
is reported as "red". -/
theorem one_hot_label_mapping_bug :
    getDummiesColumns ["new", "new", "used", "used", "red", "red"] =
      ["new", "red", "used"] ∧
    one_hot_encode ["new", "new", "used", "used", "red", "red"] =
      [[1, 0, 0], [1, 0, 0], [0, 0, 1], [0, 0, 1], [0, 1, 0], [0, 1, 0]] ∧
    trainClassIndex ["new", "new", "used", "used", "red", "red"] "used" = 2 ∧
    predicted_label
      (trainClassIndex ["new", "new", "used", "used", "red", "red"] "used") =
      "red" ∧
    predicted_label
      (trainClassIndex ["new", "new", "used", "used", "red", "red"] "used") ≠
      "used" := by
  refine ⟨by decide, ?_, by decide, by decide, by decide⟩
  have hcols : getDummiesColumns ["new", "new", "used", "used", "red", "red"] =
      ["new", "red", "used"] := by decide
  rw [one_hot_encode, hcols]
  norm_num
  decide

/-! ## Trainer mini-batch selection

Source:
```
offset = (itr * batch_size) % (labels.shape[0] - batch_size)
batch_x = X_train[offset:(offset + batch_size), :, :]
batch_y = y_train[offset:(offset + batch_size), :]
```
`labels` is the one-hot matrix of the FULL corpus (120 rows in the
reference run), while `X_train`/`y_train` hold only the training split
(96 rows), so the wrap bound is `corpus - batch_size`, not the training
split. -/
def offsetAt (corpusN bs itr : ℕ) : ℕ := (itr * bs) % (corpusN - bs)

def trainBatch (X : List α) (corpusN bs itr : ℕ) : List α :=
  pySlice X (offsetAt corpusN bs itr) (offsetAt corpusN bs itr + bs)

/-- C2 (amended): the offset wraps modulo `corpusN - batch_size` (the FULL
corpus size minus the batch size, not the training-split size); the batch is
the slice `X_train[offset : offset + batch_size]`, which consists of
`batch_size` consecutive training examples exactly when
`offset + batch_size ≤ trainN`, and is shorter otherwise. -/
theorem trainBatch_slice_spec (X : List α) (corpusN bs itr : ℕ) (d : α) :
    offsetAt corpusN bs itr = (itr * bs) % (corpusN - bs) ∧
    (trainBatch X corpusN bs itr).length =
      min bs (X.length - offsetAt corpusN bs itr) ∧
    (offsetAt corpusN bs itr + bs ≤ X.length →
      (trainBatch X corpusN bs itr).length = bs) ∧
    ∀ j, j < (trainBatch X corpusN bs itr).length →
      (trainBatch X corpusN bs itr).getD j d =
        X.getD (offsetAt corpusN bs itr + j) d := by
  set o := offsetAt corpusN bs itr with ho
  have hlen : (trainBatch X corpusN bs itr).length = min bs (X.length - o) := by
    simp only [trainBatch, pySlice, List.length_take, List.length_drop, ← ho]
    omega
  refine ⟨rfl, hlen, by omega, ?_⟩
  intro j hj
  rw [hlen] at hj
  have hjbs : j < o + bs - o := by omega
  simp only [trainBatch, pySlice, ← ho]
  rw [List.getD_eq_getElem?_getD, List.getElem?_take, if_pos hjbs,
    List.getElem?_drop, ← List.getD_eq_getElem?_getD]

theorem trainBatch_slice_spec_witness :
    (trainBatch (List.range 96) 120 5 3).getD 2 0 =
      (List.range 96).getD (offsetAt 120 5 3 + 2) 0 :=
  (trainBatch_slice_spec (List.range 96) 120 5 3 0).2.2.2 2 (by decide)

/-- C2 counterexample: at iteration 19 of the reference run (corpus 120,
training split 96, batch size 5) the offset is 95, beyond the training
split's last full-batch start 91, and the selected batch has 1 example, not
`batch_size` — refuting "wrapping within the bounds of the training
split". -/
theorem train_batch_not_full_cex :
    offsetAt 120 5 19 = 95 ∧ 96 - 5 < offsetAt 120 5 19 ∧
    (trainBatch (List.replicate 96 (0 : ℚ)) 120 5 19).length = 1 ∧
    (trainBatch (List.replicate 96 (0 : ℚ)) 120 5 19).length ≠ 5 := by
  refine ⟨by decide, by decide, ?_, ?_⟩ <;>
    simp [trainBatch, pySlice, offsetAt, List.length_take, List.length_drop]

/-- C9: with the reference configuration (corpus 120, training split 96,
batch size 5) the wrapping offset exceeds `trainN - batch_size` at some
iteration: at iteration 19 the offset is 95 and the batch holds a single
example; at iteration 20 the offset is 100 and the batch is empty.  The
slice itself is total — no error is raised. -/
theorem training_short_batch (X : List ℚ) (hX : X.length = 96) :
    offsetAt 120 5 19 = 95 ∧ 96 - 5 < offsetAt 120 5 19 ∧
    (trainBatch X 120 5 19).length = 1 ∧
    (trainBatch X 120 5 19).length < 5 ∧
    offsetAt 120 5 20 = 100 ∧
    (trainBatch X 120 5 20).length = 0 := by
  refine ⟨by decide, by decide, ?_, ?_, by decide, ?_⟩ <;>
    simp [trainBatch, pySlice, offsetAt, List.length_take, List.length_drop, hX]

theorem training_short_batch_witness :
    (List.replicate 96 (1 : ℚ)).length = 96 ∧
      (trainBatch (List.replicate 96 (1 : ℚ)) 120 5 19).length = 1 :=
  ⟨by simp, (training_short_batch (List.replicate 96 1) (by simp)).2.2.1⟩

/-! ## Inference Aggregator

Source:
```
y_predicts = session.run(prediction, ...)
predicted_logit = stats.mode(np.argmax(y_predicts,1))[0][0]
predicted_label = LABELS[predicted_logit]
predicted_probability = stats.mode(np.argmax(y_predicts,1))[1][0] / len(y_predicts)
```
`np.argmax(·, 1)` returns, per row, the first index attaining the row
maximum; `scipy.stats.mode` (external collaborator) returns the most
frequent value, and when several values are tied it returns the smallest.
`modeOf` models that contract as the least value attaining the maximal
multiplicity. -/
def argmaxIdx (row : List ℚ) : ℕ :=
  ((List.range row.length).find?
    (fun i => row.all (fun x => x ≤ row.getD i 0))).getD 0

def listMaxN (l : List ℕ) : ℕ := l.foldr max 0

/-- The maximal multiplicity among values of `l`. -/
def modeCount (l : List ℕ) : ℕ := (l.map (fun v => l.count v)).foldr max 0

/-- Modelled from the `scipy.stats.mode` contract: the smallest value of
maximal multiplicity. -/
def modeOf (l : List ℕ) : ℕ :=
  ((List.range (listMaxN l + 1)).find?
    (fun v => l.count v == modeCount l)).getD 0

def aggregate (batch : List (List ℚ)) : String × ℚ :=
  (predicted_label (modeOf (batch.map argmaxIdx)),
    ((batch.map argmaxIdx).count (modeOf (batch.map argmaxIdx)) : ℚ) /
      (batch.length : ℚ))

lemma le_foldr_max {l : List ℕ} {a : ℕ} (h : a ∈ l) : a ≤ l.foldr max 0 := by
  induction l with
  | nil => cases h
  | cons b t ih =>
    rcases List.mem_cons.mp h with rfl | ht
    · exact le_max_left _ _
    · exact le_trans (ih ht) (le_max_right _ _)

lemma count_le_modeCount (l : List ℕ) (v : ℕ) : l.count v ≤ modeCount l := by
  by_cases hv : v ∈ l
  · exact le_foldr_max (List.mem_map_of_mem _ hv)
  · rw [List.count_eq_zero.mpr hv]
    exact Nat.zero_le _

lemma foldr_max_mem : ∀ l : List ℕ, l.foldr max 0 ∈ l ∨ l.foldr max 0 = 0 := by
  intro l
  induction l with
  | nil => right; rfl
  | cons a t ih =>
    simp only [List.foldr_cons]
    rcases Nat.le_total (t.foldr max 0) a with hle | hge
    · left
      rw [max_eq_left hle]
      exact List.mem_cons_self _ _
    · rw [max_eq_right hge]
      rcases ih with hmem | h0
      · left
        exact List.mem_cons_of_mem _ hmem
      · right
        exact h0

lemma exists_modeCount {l : List ℕ} (h : l ≠ []) :
    ∃ v ∈ l, l.count v = modeCount l := by
  rcases foldr_max_mem (l.map (fun v => l.count v)) with hmem | h0
  · rw [List.mem_map] at hmem
    obtain ⟨v, hv, hc⟩ := hmem
    exact ⟨v, hv, hc⟩
  · obtain ⟨a, t, rfl⟩ := List.exists_cons_of_ne_nil h
    exfalso
    have h1 : (a :: t).count a ≤ modeCount (a :: t) := count_le_modeCount _ _
    have h2 : 0 < (a :: t).count a :=
      List.count_pos_iff.mpr (List.mem_cons_self a t)
    have h0' : modeCount (a :: t) = 0 := h0
    omega

lemma find?_first_sorted {p : ℕ → Bool} :
    ∀ l : List ℕ, l.Pairwise (· < ·) → ∀ v, l.find? p = some v →
      p v = true ∧ ∀ u ∈ l, u < v → p u = false := by
  intro l
  induction l with
  | nil =>
    intro _ v hv
    simp at hv
  | cons a t ih =>
    intro hpw v hv
    rw [List.find?_cons] at hv
    cases hpa : p a with
    | true =>
      rw [hpa] at hv
      injection hv with hv
      subst hv
      refine ⟨hpa, ?_⟩
      intro u hu hlt
      rcases List.mem_cons.mp hu with rfl | hut
      · omega
      · have := (List.pairwise_cons.mp hpw).1 u hut
        omega
    | false =>
      rw [hpa] at hv
      obtain ⟨hp, hall⟩ := ih (List.pairwise_cons.mp hpw).2 v hv
      refine ⟨hp, ?_⟩
      intro u hu hlt
      rcases List.mem_cons.mp hu with rfl | hut
      · exact hpa
      · exact hall u hut hlt

lemma modeOf_spec {l : List ℕ} (h : l ≠ []) :
    l.count (modeOf l) = modeCount l ∧
      ∀ u, u < modeOf l → l.count u ≠ modeCount l := by
  obtain ⟨v, hvl, hvc⟩ := exists_modeCount h
  have hvb : v < listMaxN l + 1 := Nat.lt_succ_of_le (le_foldr_max hvl)
  cases hcase : (List.range (listMaxN l + 1)).find?
      (fun v => l.count v == modeCount l) with
  | none =>
    exfalso
    rw [List.find?_eq_none] at hcase
    exact hcase v (List.mem_range.mpr hvb) (by simp [hvc])
  | some m =>
    obtain ⟨hpm, hfirst⟩ :=
      find?_first_sorted _ (List.pairwise_lt_range _) m hcase
    have hmode : modeOf l = m := by
      rw [modeOf, hcase]
      rfl
    have hmb : m < listMaxN l + 1 :=
      List.mem_range.mp (List.mem_of_find?_eq_some hcase)
    rw [hmode]
    refine ⟨by simpa using hpm, ?_⟩
    intro u hu hcnt
    have humem : u ∈ List.range (listMaxN l + 1) := List.mem_range.mpr (by omega)
    have := hfirst u humem hu
    simp only [beq_iff_eq] at this
    simp [hcnt] at this

/-- The fixed example prediction batches of the spec: per-window argmax
indices `[0, 0, 1, 0, 0]` and the tie `[0, 0, 1, 1]`. -/
def exampleBatchA : List (List ℚ) :=
  [[1, 0, 0], [1, 0, 0], [0, 1, 0], [1, 0, 0], [1, 0, 0]]

def exampleBatchB : List (List ℚ) :=
  [[1, 0, 0], [1, 0, 0], [0, 1, 0], [0, 1, 0]]

/-- C4: for every nonempty prediction batch the Inference Aggregator returns
the label of the most frequent per-window argmax index (smallest index on
ties) with confidence `(windows agreeing with the mode) / (window count)`,
which lies in `[0, 1]`; argmaxes `[0,0,1,0,0]` give ("new", 0.8) and the tie
`[0,0,1,1]` gives ("new", 0.5) — class index 0 in both cases. -/
theorem aggregate_mode_confidence :
    (∀ batch : List (List ℚ), batch ≠ [] →
      (aggregate batch).1 = predicted_label (modeOf (batch.map argmaxIdx)) ∧
      (∀ v, (batch.map argmaxIdx).count v ≤
        (batch.map argmaxIdx).count (modeOf (batch.map argmaxIdx))) ∧
      (∀ v, (batch.map argmaxIdx).count v =
        (batch.map argmaxIdx).count (modeOf (batch.map argmaxIdx)) →
        modeOf (batch.map argmaxIdx) ≤ v) ∧
      (aggregate batch).2 =
        ((batch.map argmaxIdx).count (modeOf (batch.map argmaxIdx)) : ℚ) /
          (batch.length : ℚ) ∧
      0 ≤ (aggregate batch).2 ∧ (aggregate batch).2 ≤ 1) ∧
    aggregate exampleBatchA = ("new", 4 / 5) ∧
    aggregate exampleBatchB = ("new", 1 / 2) := by
  refine ⟨?_, ?_, ?_⟩
  · intro batch hne
    have hane : batch.map argmaxIdx ≠ [] := by
      simpa using hne
    obtain ⟨hcnt, hfirst⟩ := modeOf_spec hane
    refine ⟨rfl, ?_, ?_, rfl, ?_, ?_⟩
    · intro v
      rw [hcnt]
      exact count_le_modeCount _ v
    · intro v hv
      by_contra hlt
      exact hfirst v (by omega) (hv ▸ hcnt)
    · exact div_nonneg (Nat.cast_nonneg _) (Nat.cast_nonneg _)
    · have hle : (batch.map argmaxIdx).count (modeOf (batch.map argmaxIdx)) ≤
          batch.length := by
        calc (batch.map argmaxIdx).count (modeOf (batch.map argmaxIdx)) ≤
            (batch.map argmaxIdx).length := List.count_le_length _ _
          _ = batch.length := List.length_map _ _
      exact div_le_one_of_le₀ (by exact_mod_cast hle) (Nat.cast_nonneg _)
  · have h1 : modeOf (exampleBatchA.map argmaxIdx) = 0 := by decide
    have h2 : (exampleBatchA.map argmaxIdx).count 0 = 4 := by decide
    rw [aggregate, h1, h2]
    norm_num [predicted_label, LABELS, exampleBatchA]
  · have h1 : modeOf (exampleBatchB.map argmaxIdx) = 0 := by decide
    have h2 : (exampleBatchB.map argmaxIdx).count 0 = 2 := by decide
    rw [aggregate, h1, h2]
    norm_num [predicted_label, LABELS, exampleBatchB]

theorem aggregate_mode_confidence_witness :
    exampleBatchB ≠ [] ∧
      (0 ≤ (aggregate exampleBatchB).2 ∧ (aggregate exampleBatchB).2 ≤ 1) :=
  ⟨by decide,
    (aggregate_mode_confidence.1 exampleBatchB (by decide)).2.2.2.2⟩

/-! ## Feature Extractor

Source (per recording, inside `extract_features`):
```
window_size = 512 * (frames - 1)
sound_clip = feature_normalize(sound_clip)
for (start,end) in windows(sound_clip,window_size):
    if(len(sound_clip[start:end]) == window_size):
        signal = sound_clip[start:end]
        mfcc = librosa.feature.mfcc(y=signal, sr=s, n_mfcc = bands).T
        mfccs.append(mfcc)
```
`librosa.feature.mfcc` is an external collaborator: per its contract (and
the source's own comment) it returns a matrix of shape
`n_mfcc × (1 + len(y) // hop_length)` with the default `hop_length = 512`.
The embedding takes the collaborator as a parameter `mf` constrained by
that shape contract.  `transposeR` is the numpy `.T` on a rectangular
matrix represented as a list of rows (a `0 × T` input cannot be
represented as a list of rows, whence the `1 ≤ bands` hypothesis). -/
def transposeR (m : List (List ℚ)) : List (List ℚ) :=
  (List.range (m.headD []).length).map (fun j => m.map (fun r => r.getD j 0))

def extract_one (mf : List ℚ → ℕ → List (List ℚ)) (bands frames : ℕ)
    (clip : List ℚ) : List (List (List ℚ)) :=
  ((windows (feature_normalize clip).length (512 * (frames - 1))).filter
      (fun p => (pySlice (feature_normalize clip) p.1 p.2).length ==
        512 * (frames - 1))).map
    (fun p => transposeR (mf (pySlice (feature_normalize clip) p.1 p.2) bands))

/-- C6: every feature window emitted for a recording is a `frames × bands`
matrix, whatever the recording length; windows whose slice is shorter than
`window_size` are skipped, so exactly the full windows are emitted. -/
theorem extract_features_window_shape (mf : List ℚ → ℕ → List (List ℚ))
    (bands frames : ℕ) (clip : List ℚ)
    (hb : 1 ≤ bands) (hf : 1 ≤ frames)
    (_hclip : 512 * (frames - 1) ≤ clip.length)
    (hm : ∀ sig b, (mf sig b).length = b ∧
      ∀ r ∈ mf sig b, r.length = 1 + sig.length / 512) :
    (∀ w ∈ extract_one mf bands frames clip,
      w.length = frames ∧ ∀ row ∈ w, row.length = bands) ∧
    (extract_one mf bands frames clip).length =
      (fullWindows (feature_normalize clip).length (512 * (frames - 1))).length := by
  constructor
  · intro w hw
    simp only [extract_one, List.mem_map] at hw
    obtain ⟨p, hp, rfl⟩ := hw
    rw [List.mem_filter] at hp
    obtain ⟨-, hlen⟩ := hp
    have hslen : (pySlice (feature_normalize clip) p.1 p.2).length =
        512 * (frames - 1) := by
      simpa using hlen
    obtain ⟨hmlen, hmrow⟩ := hm (pySlice (feature_normalize clip) p.1 p.2) bands
    have hT : 1 + (pySlice (feature_normalize clip) p.1 p.2).length / 512 =
        frames := by
      rw [hslen, Nat.mul_div_cancel_left _ (by norm_num : 0 < 512)]
      omega
    obtain ⟨r0, t, hm0⟩ : ∃ r0 t,
        mf (pySlice (feature_normalize clip) p.1 p.2) bands = r0 :: t := by
      cases hmf : mf (pySlice (feature_normalize clip) p.1 p.2) bands with
      | nil =>
        rw [hmf] at hmlen
        simp at hmlen
        omega
      | cons r0 t => exact ⟨r0, t, rfl⟩
    constructor
    · rw [transposeR, List.length_map, List.length_range, hm0,
        List.headD_cons]
      rw [hmrow r0 (by rw [hm0]; exact List.mem_cons_self _ _)]
      exact hT
    · intro row hrow
      simp only [transposeR, List.mem_map] at hrow
      obtain ⟨j, hj, rfl⟩ := hrow
      rw [List.length_map, hmlen]
  · rw [extract_one, List.length_map, fullWindows]
    congr 1
    apply List.filter_congr
    intro p _
    rw [pySlice_length]

theorem extract_features_window_shape_witness :
    (1 ≤ 20 ∧ 1 ≤ 2 ∧ 512 * (2 - 1) ≤ (List.replicate 600 (1 : ℚ)).length) ∧
      ∀ w ∈ extract_one
          (fun sig b => (List.range b).map
            (fun _ => (List.range (1 + sig.length / 512)).map (fun _ => (0 : ℚ))))
          20 2 (List.replicate 600 (1 : ℚ)),
        w.length = 2 ∧ ∀ row ∈ w, row.length = 20 :=
  ⟨⟨by decide, by decide, by rw [List.length_replicate]; norm_num⟩,
    (extract_features_window_shape
      (fun sig b => (List.range b).map
        (fun _ => (List.range (1 + sig.length / 512)).map (fun _ => (0 : ℚ))))
      20 2 (List.replicate 600 1) (by decide) (by decide)
      (by rw [List.length_replicate]; norm_num)
      (fun sig b => ⟨by simp, fun r hr => by
        simp only [List.mem_map] at hr
        obtain ⟨j, _, rfl⟩ := hr
        simp⟩)).1⟩

/-! ## Trainer loss

Source:
```
loss_f = -tf.reduce_sum(y * tf.log(prediction))
```
`tf.log` is the elementwise natural logarithm, `*` the elementwise product,
`tf.reduce_sum` the sum of all entries of the batch matrix.  The logarithm
is a transcendental function with no exact rational embedding, so it enters
as an explicit scalar-function parameter `logf`; every statement below holds
for an arbitrary `logf`, in particular for the true natural logarithm. -/
def tfLog (logf : ℚ → ℚ) (m : List (List ℚ)) : List (List ℚ) :=
  m.map (fun r => r.map logf)

def tfMul (a b : List (List ℚ)) : List (List ℚ) :=
  List.zipWith (fun ra rb => List.zipWith (· * ·) ra rb) a b

def tfReduceSum (m : List (List ℚ)) : ℚ := (m.map List.sum).sum

def loss_f (logf : ℚ → ℚ) (y prediction : List (List ℚ)) : ℚ :=
  -tfReduceSum (tfMul y (tfLog logf prediction))

lemma row_ce_sum (logf : ℚ → ℚ) (ry : List ℚ) :
    ∀ rp : List ℚ, ry.length = rp.length →
      (List.zipWith (· * ·) ry (rp.map logf)).sum =
        ∑ j ∈ Finset.range ry.length,
          ry.getD j 0 * logf (rp.getD j 0) := by
  induction ry with
  | nil =>
    intro rp _
    simp
  | cons a t ih =>
    intro rp h
    cases rp with
    | nil => simp at h
    | cons b u =>
      simp only [List.map_cons, List.zipWith_cons_cons, List.sum_cons,
        List.length_cons]
      rw [Finset.sum_range_succ']
      simp only [List.getD_cons_succ, List.getD_cons_zero]
      rw [ih u (by simpa using h)]
      ring

lemma tfReduceSum_cons (logf : ℚ → ℚ) (a : List ℚ) (b : List ℚ)
    (l₁ l₂ : List (List ℚ)) :
    tfReduceSum (tfMul (a :: l₁) (tfLog logf (b :: l₂))) =
      (List.zipWith (· * ·) a (b.map logf)).sum +
        tfReduceSum (tfMul l₁ (tfLog logf l₂)) := by
  simp [tfReduceSum, tfMul, tfLog]

/-- C7: the training loss is the categorical cross-entropy
`-Σᵢ Σⱼ yᵢⱼ · log(predictionᵢⱼ)` summed over every example and class of the
batch, with no averaging. -/
theorem loss_f_cross_entropy (logf : ℚ → ℚ) (y prediction : List (List ℚ))
    (h : List.Forall₂ (fun ry rp => ry.length = rp.length) y prediction) :
    loss_f logf y prediction =
      -(∑ i ∈ Finset.range y.length,
        ∑ j ∈ Finset.range ((y.getD i []).length),
          (y.getD i []).getD j 0 *
            logf ((prediction.getD i []).getD j 0)) := by
  induction h with
  | nil => simp [loss_f, tfReduceSum, tfMul, tfLog]
  | @cons a b l₁ l₂ h₁ h₂ ih =>
    have htail : tfReduceSum (tfMul l₁ (tfLog logf l₂)) =
        ∑ i ∈ Finset.range l₁.length,
          ∑ j ∈ Finset.range ((l₁.getD i []).length),
            (l₁.getD i []).getD j 0 *
              logf ((l₂.getD i []).getD j 0) := by
      simp only [loss_f] at ih
      exact neg_inj.mp ih
    rw [loss_f, tfReduceSum_cons, List.length_cons, Finset.sum_range_succ']
    simp only [List.getD_cons_succ, List.getD_cons_zero]
    rw [row_ce_sum logf a b h₁, htail]
    ring

theorem loss_f_cross_entropy_witness :
    List.Forall₂ (fun ry rp : List ℚ => ry.length = rp.length)
      [[(1 : ℚ), 0, 0]] [[(1 : ℚ) / 2, 1 / 4, 1 / 4]] ∧
    loss_f id [[(1 : ℚ), 0, 0]] [[(1 : ℚ) / 2, 1 / 4, 1 / 4]] =
      -(∑ i ∈ Finset.range ([[(1 : ℚ), 0, 0]] : List (List ℚ)).length,
        ∑ j ∈ Finset.range ((([[(1 : ℚ), 0, 0]] : List (List ℚ)).getD i []).length),
          (([[(1 : ℚ), 0, 0]] : List (List ℚ)).getD i []).getD j 0 *
            id ((([[(1 : ℚ) / 2, 1 / 4, 1 / 4]] : List (List ℚ)).getD i []).getD j 0)) :=
  ⟨by simp, loss_f_cross_entropy id _ _ (by simp)⟩

end Acoustic
